import Mathlib

/-!
Verification development for the quantum-gate application core of
`pytorch_quantum/functional.py`.

The embedding idealizes the torch complex dtype (`C_DTYPE`, complex64) by the
mathematical complex numbers `ℂ`, and real float parameters by `ℝ`.

Two representations are used, matching the two layers of the source:

* The unitary-application engine `apply_unitary_einsum` works on a state
  tensor of shape `(batch, 2, …, 2)`.  We embed such a tensor as a function
  `Fin B → (Fin n → Fin 2) → R` (batch index, then one `Fin 2` index per
  qubit axis).  The engine is generic in a commutative ring `R` of scalars:
  the source runs it on complex tensors (`R := ℂ`), and concrete evaluations
  instantiate `R := ℤ` and transport along the cast ring homomorphism.
  The einsum subscript strings are embedded as lists of letter codes
  (`0 ↔ 'a'`, …, `25 ↔ 'z'`), and `torch.einsum` for two operands is given
  its standard semantics: sum over the (deduplicated) input letters missing
  from the output of the product of the operand entries.

* The gate-matrix generators (`rx_matrix`, …, `crx_matrix`) and the constant
  table `mat_dict` build finished tensors with `torch.stack`/`torch.cat`/
  `squeeze(0)` etc., whose shape behaviour matters.  These are embedded on a
  small tensor model `PTensor` (a shape together with row-major flat data).

`macro.py` and `utils.py` of this repository are not under `src/`; the
definitions taken from them (`ABC`, `INV_SQRT2`, `pauli_eigs`, `diag`) are
modelled from the spec and carry a `Modelled from the spec:` doc comment.
-/

/-! ## Einsum index scheme (engine side)

Letters of the symbol alphabet `ABC` are embedded as their position
`0, …, 25`; the state axis for qubit `p` receives letter `p`
(`state_indices = ABC[:total_wires]`), so the letter of a wire `w` is `w`
itself (`ABC_ARRAY[list(device_wires)]`). -/

/-- Modelled from the spec: `macro.py` (not under `src/`) defines the symbol
alphabet `ABC` of 26 lowercase letters, the last of which is reserved for the
batch axis.  `abcSlice a b` embeds the Python slice `ABC[a:b]` as the list of
letter codes `a, …, min b 26 - 1`. -/
def abcSlice (a b : ℕ) : List ℕ := List.range' a (min b 26 - a)

/-- Python `str.replace old new`: replace every occurrence. -/
def replaceAll (s : List ℕ) (old new : ℕ) : List ℕ :=
  s.map fun c => if c = old then new else c

/-- `functools.reduce` of `str.replace` over the paired affected/new indices:
builds `new_state_indices` from `state_indices`. -/
def newStateIndicesOf (si : List ℕ) (pairs : List (ℕ × ℕ)) : List ℕ :=
  pairs.foldl (fun s p => replaceAll s p.1 p.2) si

/-- The same replacement chain acting on a single letter; `newStateIndicesOf`
is the elementwise map of this function (`newStateIndicesOf_eq_map`). -/
def chainFun (pairs : List (ℕ × ℕ)) (c : ℕ) : ℕ :=
  pairs.foldl (fun c p => if c = p.1 then p.2 else c) c

/-- The single-letter substitution realized by the replacement chain of
`apply_unitary_einsum` when the wires are in range: an affected letter (a
wire) becomes its paired fresh letter, every other letter stays
(`nsi_eq_map`). -/
def substLetter (n : ℕ) (wires : List ℕ) (c : ℕ) : ℕ :=
  if c ∈ wires then n + wires.indexOf c else c

/-- Row-major flattening of a multi-index over axes of size 2 (the convention
of `torch.reshape`). -/
def encodeBits (l : List (Fin 2)) : ℕ := l.foldl (fun a b => 2 * a + b.val) 0

/-- Entry function of `torch.reshape(mat, [2] * (2 * k))` applied to a
`2^k × 2^k` matrix: the first `k` bits select the row, the last `k` the
column, both row-major. -/
def matEntry {R : Type*} (k : ℕ) (mat : Fin (2 ^ k) → Fin (2 ^ k) → R)
    (idx : List (Fin 2)) : R :=
  mat ⟨encodeBits (idx.take k) % 2 ^ k, Nat.mod_lt _ (Nat.pos_pow_of_pos k (by norm_num))⟩
      ⟨encodeBits (idx.drop k) % 2 ^ k, Nat.mod_lt _ (Nat.pos_pow_of_pos k (by norm_num))⟩

/-- Iterated summation over all `Fin 2` values of the given letters, applied
to a letter valuation: the summation core of the einsum semantics. -/
def sumOver {R : Type*} [CommRing R] : List ℕ → ((ℕ → Fin 2) → R) → (ℕ → Fin 2) → R
  | [], f, v => f v
  | ℓ :: ls, f, v => ∑ b : Fin 2, sumOver ls f (Function.update v ℓ b)

/-- Semantics of `torch.einsum "{ms},{ss}->{os}"` for two operands all of
whose axes have size 2.  Operands are given by their entry functions on
index lists; the output entry at multi-index `out` fixes the output letters
through their first position in `os` and sums over each remaining input
letter (counted once). -/
def einsum2 {R : Type*} [CommRing R] (ms : List ℕ) (A : List (Fin 2) → R)
    (ss : List ℕ) (S : List (Fin 2) → R) (os : List ℕ) (out : List (Fin 2)) : R :=
  let base : ℕ → Fin 2 := fun ℓ => if ℓ ∈ os then out.getD (os.indexOf ℓ) 0 else 0
  let sumLs := ((ms ++ ss).filter (fun ℓ => ℓ ∉ os)).dedup
  sumOver sumLs (fun v => A (ms.map v) * S (ss.map v)) base

/-- Failure modes of the engine.  `batchMismatch`, `indexExhaustion` are the
two assertions of `apply_unitary_einsum`; `indexError` is the numpy lookup
failure `ABC_ARRAY[wires]` for a wire outside the alphabet; `shapeMismatch`
(a failing `torch.reshape`) and `invalidWireSet` (the spec's name for a
duplicate/out-of-range wire failure) are representable for the record. -/
inductive EngineError where
  | batchMismatch
  | shapeMismatch
  | invalidWireSet
  | indexExhaustion
  | indexError
deriving DecidableEq

/-- Embedding of `apply_unitary_einsum(state, mat, wires)` (unbatched-matrix
path, `len(mat.shape) == 2`).  The state has shape `(B, 2, …, 2)` with `n`
qubit axes; `mat` is `2^k × 2^k` with `k = len(wires)`; dependent typing
forces `wires` to precede `mat`.  The batch letter `ABC[-1]` is prefixed to
the state and output subscripts, which makes the batch axis parallel: this
is embedded by computing the qubit-level einsum for each batch index `b`.
Steps, in source order: symbol lookup for the affected indices (an
out-of-alphabet wire raises), fresh `new_indices`, the replacement fold
giving `new_state_indices`, the capacity assertion on `ABC[-1]`, and the
contraction. -/
def apply_unitary_einsum {R : Type*} [CommRing R] (n B : ℕ) (wires : List ℕ)
    (mat : Fin (2 ^ wires.length) → Fin (2 ^ wires.length) → R)
    (state : Fin B → (Fin n → Fin 2) → R) :
    Except EngineError (Fin B → (Fin n → Fin 2) → R) :=
  let total_wires := n
  let state_indices := abcSlice 0 total_wires
  if _h : ∀ w ∈ wires, w < 26 then
    let affected_indices := wires
    let new_indices := abcSlice total_wires (total_wires + wires.length)
    let new_state_indices := newStateIndicesOf state_indices (affected_indices.zip new_indices)
    if 25 ∈ state_indices ++ new_state_indices ++ new_indices ++ affected_indices then
      Except.error EngineError.indexExhaustion
    else
      Except.ok fun b y =>
        einsum2 (new_indices ++ affected_indices) (matEntry wires.length mat)
          state_indices (fun idx => state b fun p => idx.getD p.val 0)
          new_state_indices (List.ofFn y)
  else Except.error EngineError.indexError

/-- The error component of an engine result. -/
def errOf {ε α : Type*} (r : Except ε α) : Option ε :=
  match r with
  | Except.error e => some e
  | Except.ok _ => none

/-- The output amplitude of a successful engine result (0 on failure). -/
def okAt {R : Type*} [CommRing R] {n B : ℕ}
    (r : Except EngineError (Fin B → (Fin n → Fin 2) → R))
    (b : Fin B) (y : Fin n → Fin 2) : R :=
  match r with
  | Except.ok f => f b y
  | Except.error _ => 0

/-- The bit of `x` at qubit position `w` (0 when `w` is out of range). -/
def bitAt {n : ℕ} (x : Fin n → Fin 2) (w : ℕ) : Fin 2 :=
  if h : w < n then x ⟨w, h⟩ else 0

/-- The identity-embedded operator of the spec: the `2^k × 2^k` matrix
tensored with identities on the qubit positions not in `wires`, permuted so
that matrix axis `i` acts on wire `wires[i]`.  Basis states of the flattened
`2^n`-dimensional space are indexed by their bit tuples (row-major, as
`torch.reshape` flattens them); the entry at row `r`, column `c` is the
matrix entry on the wire bits times the Kronecker delta on all other bits. -/
def embeddedOperator {R : Type*} [CommRing R] (n : ℕ) (wires : List ℕ)
    (mat : Fin (2 ^ wires.length) → Fin (2 ^ wires.length) → R)
    (r c : Fin n → Fin 2) : R :=
  mat ⟨encodeBits (wires.map (bitAt r)) % 2 ^ wires.length,
        Nat.mod_lt _ (Nat.pos_pow_of_pos wires.length (by norm_num))⟩
      ⟨encodeBits (wires.map (bitAt c)) % 2 ^ wires.length,
        Nat.mod_lt _ (Nat.pos_pow_of_pos wires.length (by norm_num))⟩ *
    ∏ p : Fin n, if p.val ∈ wires then 1 else (if r p = c p then 1 else 0)

/-- The state basis function obtained from `y` by overriding the bits at the
wire positions listed in `W` with the assignment `c` (proof scaffolding for
the contraction equivalence). -/
def overrideWires (n : ℕ) (W : List ℕ) (y : Fin n → Fin 2)
    (c : Fin W.length → Fin 2) (p : Fin n) : Fin 2 :=
  if p.val ∈ W then (List.ofFn c).getD (W.indexOf p.val) 0 else y p

/-! ## Tensor model for the gate-matrix library -/

/-- A dense tensor: a shape and row-major flat data over `ℂ`. -/
structure PTensor where
  shape : List ℕ
  data : List ℂ

/-- Size of the last axis (1 for a degenerate shape). -/
def lastDim (t : PTensor) : ℕ := t.shape.getLastD 1

/-- Split a flat list into chunks of `m` (the rows of the last axis). -/
def chunksOf (m : ℕ) : List ℂ → List (List ℂ)
  | [] => []
  | x :: xs =>
    if m = 0 then [] else (x :: xs).take m :: chunksOf m (xs.drop (m - 1))
termination_by l => l.length
decreasing_by
  simp only [List.length_drop, List.length_cons]
  omega

/-- Elementwise map (models casts and elementwise `torch.cos` etc.). -/
def ptMap (f : ℂ → ℂ) (t : PTensor) : PTensor := ⟨t.shape, t.data.map f⟩

/-- Elementwise binary operation on two tensors of equal shape. -/
def ptZip (f : ℂ → ℂ → ℂ) (a b : PTensor) : PTensor :=
  ⟨a.shape, List.zipWith f a.data b.data⟩

/-- `torch.cat([a, b], dim=-1)`: concatenate along the last axis.  Row-major,
this interleaves the last-axis rows of the two operands. -/
def catLast (a b : PTensor) : PTensor :=
  ⟨a.shape.dropLast ++ [lastDim a + lastDim b],
   (List.zipWith (· ++ ·) (chunksOf (lastDim a) a.data) (chunksOf (lastDim b) b.data)).flatten⟩

/-- `torch.stack([a, b], dim=-1)`: a new trailing axis of size 2.  Row-major,
entry `i` of the result pairs entry `i` of `a` with entry `i` of `b` (so the
two stacked tensors become the two columns of the new axis). -/
def stack2Last (a b : PTensor) : PTensor :=
  ⟨a.shape ++ [2], (a.data.zip b.data).flatMap fun p => [p.1, p.2]⟩

/-- `Tensor.squeeze(0)`: drop the leading axis when it has size 1. -/
def squeeze0 (t : PTensor) : PTensor :=
  if t.shape.head? = some 1 then ⟨t.shape.tail, t.data⟩ else t

/-- `Tensor.unsqueeze(0)`. -/
def unsqueeze0 (t : PTensor) : PTensor := ⟨1 :: t.shape, t.data⟩

/-- `Tensor.unsqueeze(-1)`. -/
def unsqueezeLast (t : PTensor) : PTensor := ⟨t.shape ++ [1], t.data⟩

/-- `torch.zeros(s)`. -/
def zerosPT (s : List ℕ) : PTensor := ⟨s, List.replicate s.prod 0⟩

/-- `torch.ones(s)`. -/
def onesPT (s : List ℕ) : PTensor := ⟨s, List.replicate s.prod 1⟩

/-- `params[:, c].unsqueeze(dim=-1)` for a rank-2 tensor: extract column `c`
as a `(B, 1)` tensor. -/
def colUnsq (t : PTensor) (c : ℕ) : PTensor :=
  ⟨[t.shape.headD 0, 1], (chunksOf (t.shape.getLastD 0) t.data).map fun r => r.getD c 0⟩

/-- `Tensor.repeat(B, 1, 1)` applied on the leading axis. -/
def repeatDim0 (B : ℕ) (t : PTensor) : PTensor :=
  ⟨B :: t.shape.tail, (List.replicate B t.data).flatten⟩

/-- `matrix[:, i, j] = v[:, 0]` for a `(B, 4, 4)` tensor `matrix` and a
`(B, 1)` tensor `v` (the indexed assignments of `crx_matrix`). -/
def set44 (t : PTensor) (i j : ℕ) (v : PTensor) : PTensor :=
  ⟨t.shape, t.data.mapIdx fun idx x => if idx % 16 = i * 4 + j then v.data.getD (idx / 16) 0 else x⟩

/-! ## Gate-matrix generators (`functional.py`) -/

/-- `rx_matrix(params)`; the cast `params.type(C_DTYPE)` is the identity in
the model, whose tensors are already complex. -/
noncomputable def rx_matrix (params : PTensor) : PTensor :=
  let theta := params
  let co := ptMap (fun z => Complex.cos (z / 2)) theta
  let jsi := ptMap (fun z => Complex.I * Complex.sin (-z / 2)) theta
  squeeze0 (stack2Last (catLast co jsi) (catLast jsi co))

/-- `ry_matrix(params)`. -/
noncomputable def ry_matrix (params : PTensor) : PTensor :=
  let theta := params
  let co := ptMap (fun z => Complex.cos (z / 2)) theta
  let si := ptMap (fun z => Complex.sin (z / 2)) theta
  squeeze0 (stack2Last (catLast co (ptMap (fun z => -z) si)) (catLast si co))

/-- `rz_matrix(params)`. -/
noncomputable def rz_matrix (params : PTensor) : PTensor :=
  let theta := params
  let p := ptMap (fun z => Complex.exp (-(1 / 2) * Complex.I * z)) theta
  squeeze0 (stack2Last (catLast p (zerosPT p.shape))
                       (catLast (zerosPT p.shape) (ptMap (starRingEnd ℂ) p)))

/-- `phaseshift_matrix(params)`. -/
noncomputable def phaseshift_matrix (params : PTensor) : PTensor :=
  let phi := params
  let p := ptMap (fun z => Complex.exp (Complex.I * z)) phi
  squeeze0 (stack2Last (catLast (onesPT p.shape) (zerosPT p.shape))
                       (catLast (zerosPT p.shape) p))

/-- `rot_matrix(params)` with `params` of shape `(B, 3)`. -/
noncomputable def rot_matrix (params : PTensor) : PTensor :=
  let phi := colUnsq params 0
  let theta := colUnsq params 1
  let omega := colUnsq params 2
  let co := ptMap (fun z => Complex.cos (z / 2)) theta
  let si := ptMap (fun z => Complex.sin (z / 2)) theta
  let t00 := ptZip (· * ·) (ptMap (fun z => Complex.exp (-(1 / 2) * Complex.I * z))
                              (ptZip (· + ·) phi omega)) co
  let t01 := ptMap (fun z => -z)
               (ptZip (· * ·) (ptMap (fun z => Complex.exp ((1 / 2) * Complex.I * z))
                                 (ptZip (· - ·) phi omega)) si)
  let t10 := ptZip (· * ·) (ptMap (fun z => Complex.exp (-(1 / 2) * Complex.I * z))
                              (ptZip (· - ·) phi omega)) si
  let t11 := ptZip (· * ·) (ptMap (fun z => Complex.exp ((1 / 2) * Complex.I * z))
                              (ptZip (· + ·) phi omega)) co
  squeeze0 (stack2Last (catLast t00 t01) (catLast t10 t11))

/-- Population count of the binary expansion of `i`. -/
def popCountN : ℕ → ℕ
  | 0 => 0
  | n + 1 => (n + 1) % 2 + popCountN ((n + 1) / 2)
decreasing_by exact Nat.div_lt_self (Nat.succ_pos n) (by norm_num)

/-- Modelled from the spec: `utils.py` (not under `src/`) defines
`pauli_eigs(n)`, the parity eigenvalue sequence of the `n`-fold Pauli-Z
tensor product — for each basis bitstring in lexicographic order the value
`(−1)^(popcount(bitstring))`. -/
def pauli_eigs (n : ℕ) : List ℤ :=
  (List.range (2 ^ n)).map fun i => (-1) ^ popCountN i

/-- Modelled from the spec: `utils.py` (not under `src/`) defines `diag`,
which turns a `(B, d)` tensor of eigenvalues into the `(B, d, d)` batch of
diagonal matrices (torch's `diag` is unavailable for complex dtypes). -/
def diag (x : PTensor) : PTensor :=
  match x.shape with
  | [b, d] => ⟨[b, d, d], (chunksOf d x.data).flatMap fun row =>
      (List.range d).flatMap fun i => (List.range d).map fun j =>
        if i = j then row.getD i 0 else 0⟩
  | _ => x

/-- `multirz_eigvals(params, n_wires)`: the broadcast
`exp(-1j * theta / 2 * pauli_eigs(n_wires))` of shape `(B, 2^n_wires)`. -/
noncomputable def multirz_eigvals (params : PTensor) (n_wires : ℕ) : PTensor :=
  ⟨[params.shape.headD 0, 2 ^ n_wires],
   params.data.flatMap fun θ =>
     (pauli_eigs n_wires).map fun e => Complex.exp (-Complex.I * θ / 2 * (e : ℤ))⟩

/-- `multirz_matrix(params, n_wires)`. -/
noncomputable def multirz_matrix (params : PTensor) (n_wires : ℕ) : PTensor :=
  squeeze0 (diag (multirz_eigvals params n_wires))

/-- `crx_matrix(params)`. -/
noncomputable def crx_matrix (params : PTensor) : PTensor :=
  let theta := params
  let co := ptMap (fun z => Complex.cos (z / 2)) theta
  let jsi := ptMap (fun z => Complex.I * Complex.sin (-z / 2)) theta
  let base : PTensor := ⟨[4, 4], [1, 0, 0, 0,  0, 1, 0, 0,  0, 0, 0, 0,  0, 0, 0, 0]⟩
  let m0 := repeatDim0 (co.shape.headD 0) (unsqueeze0 base)
  let m1 := set44 m0 2 2 co
  let m2 := set44 m1 2 3 jsi
  let m3 := set44 m2 3 2 jsi
  let m4 := set44 m3 3 3 co
  squeeze0 m4

/-! ## Constant gate table (`mat_dict`) -/

/-- Modelled from the spec: `macro.py` (not under `src/`) defines
`INV_SQRT2 = 1/√2`. -/
noncomputable def INV_SQRT2 : ℂ := ((Real.sqrt 2)⁻¹ : ℝ)

noncomputable def hadamard_mat : PTensor :=
  ⟨[2, 2], [INV_SQRT2, INV_SQRT2, INV_SQRT2, -INV_SQRT2]⟩

def paulix_mat : PTensor := ⟨[2, 2], [0, 1, 1, 0]⟩

def pauliy_mat : PTensor := ⟨[2, 2], [0, -Complex.I, Complex.I, 0]⟩

def pauliz_mat : PTensor := ⟨[2, 2], [1, 0, 0, -1]⟩

def s_mat : PTensor := ⟨[2, 2], [1, 0, 0, Complex.I]⟩

noncomputable def t_mat : PTensor :=
  ⟨[2, 2], [1, 0, 0, Complex.exp (Complex.I * Real.pi / 4)]⟩

noncomputable def sx_mat : PTensor :=
  ptMap (fun z => (1 / 2 : ℂ) * z)
    ⟨[2, 2], [1 + Complex.I, 1 - Complex.I, 1 - Complex.I, 1 + Complex.I]⟩

def cnot_mat : PTensor :=
  ⟨[4, 4], [1, 0, 0, 0,  0, 1, 0, 0,  0, 0, 0, 1,  0, 0, 1, 0]⟩

def cz_mat : PTensor :=
  ⟨[4, 4], [1, 0, 0, 0,  0, 1, 0, 0,  0, 0, 1, 0,  0, 0, 0, -1]⟩

def cy_mat : PTensor :=
  ⟨[4, 4], [1, 0, 0, 0,  0, 1, 0, 0,  0, 0, 0, -Complex.I,  0, 0, -Complex.I, 0]⟩

def swap_mat : PTensor :=
  ⟨[4, 4], [1, 0, 0, 0,  0, 0, 1, 0,  0, 1, 0, 0,  0, 0, 0, 1]⟩

def cswap_mat : PTensor :=
  ⟨[8, 8], ((List.range 8).flatMap fun i => (List.range 8).map fun j =>
      if (i = 5 ∧ j = 6) ∨ (i = 6 ∧ j = 5) then 1
      else if i = j ∧ i ≠ 5 ∧ i ≠ 6 then 1 else 0)⟩

def toffoli_mat : PTensor :=
  ⟨[8, 8], ((List.range 8).flatMap fun i => (List.range 8).map fun j =>
      if (i = 6 ∧ j = 7) ∨ (i = 7 ∧ j = 6) then 1
      else if i = j ∧ i ≠ 6 ∧ i ≠ 7 then 1 else 0)⟩

/-- A `mat_dict` value: a fixed tensor, or a callable matrix generator
(called as `mat(params)` or `mat(params, n_wires)` depending on whether the
wrapper received `n_wires`; the model merges the two call forms into one
function of the optional wire count). -/
inductive GateMat where
  | const (m : PTensor)
  | fn (f : PTensor → Option ℕ → PTensor)

/-- The dispatch table `mat_dict`. -/
noncomputable def mat_dict : List (String × GateMat) :=
  [("hadamard", GateMat.const hadamard_mat),
   ("paulix", GateMat.const paulix_mat),
   ("pauliy", GateMat.const pauliy_mat),
   ("pauliz", GateMat.const pauliz_mat),
   ("s", GateMat.const s_mat),
   ("t", GateMat.const t_mat),
   ("sx", GateMat.const sx_mat),
   ("cnot", GateMat.const cnot_mat),
   ("cz", GateMat.const cz_mat),
   ("cy", GateMat.const cy_mat),
   ("swap", GateMat.const swap_mat),
   ("cswap", GateMat.const cswap_mat),
   ("toffoli", GateMat.const toffoli_mat),
   ("rx", GateMat.fn fun p _ => rx_matrix p),
   ("ry", GateMat.fn fun p _ => ry_matrix p),
   ("rz", GateMat.fn fun p _ => rz_matrix p),
   ("phaseshift", GateMat.fn fun p _ => phaseshift_matrix p),
   ("rot", GateMat.fn fun p _ => rot_matrix p),
   ("multirz", GateMat.fn fun p nw => multirz_matrix p (nw.getD 1)),
   ("crx", GateMat.fn fun p _ => crx_matrix p)]

/-! ## Dispatcher (`gate_wrapper`) -/

/-- The `wires` argument: a bare integer or a list. -/
inductive WiresArg where
  | single (w : ℕ)
  | many (ws : List ℕ)

/-- `wires = [wires] if isinstance(wires, int) else wires`. -/
def normWires : WiresArg → List ℕ
  | WiresArg.single w => [w]
  | WiresArg.many ws => ws

/-- The failure of `params.dim()` when `params` is `None`
(`AttributeError: 'NoneType' object has no attribute 'dim'`). -/
inductive GWError where
  | attributeError
deriving DecidableEq

/-- The owning device: holds the long-lived state tensor. -/
structure QuantumDevice where
  states : PTensor

/-- Embedding of `gate_wrapper(mat, q_device, wires, params, n_wires)`.
The engine is passed explicitly as `applyU` (in the source it is the fixed
call `apply_unitary_einsum`); the theorems about the dispatcher hold for
every `applyU`, which expresses that the failing path returns before the
matrix is built, the device state is read, or the engine runs.  State
assignment `q_device.states = …` is embedded by returning the updated
device. -/
def gate_wrapper (applyU : PTensor → PTensor → List ℕ → PTensor) (mat : GateMat)
    (q_device : QuantumDevice) (wires : WiresArg) (params : Option PTensor)
    (n_wires : Option ℕ) : Except GWError QuantumDevice :=
  match mat with
  | GateMat.fn f =>
    match params with
    | none => Except.error GWError.attributeError
    | some p =>
      let p2 := if p.shape.length = 1 then unsqueezeLast p else p
      let matrix := f p2 n_wires
      Except.ok ⟨applyU q_device.states matrix (normWires wires)⟩
  | GateMat.const m =>
    Except.ok ⟨applyU q_device.states m (normWires wires)⟩

/-- The CNOT matrix over `ℤ` (the entries of `mat_dict['cnot']`, which are
integral), used for concrete engine evaluations. -/
def cnotZ : Fin 4 → Fin 4 → ℤ := fun i j =>
  [1, 0, 0, 0,  0, 1, 0, 0,  0, 0, 0, 1,  0, 0, 1, 0].getD (i.val * 4 + j.val) 0

/-- The 2-qubit basis state `|01⟩` over `ℤ` (amplitudes 0/1). -/
def state01Z : Fin 1 → (Fin 2 → Fin 2) → ℤ := fun _ y =>
  if y 0 = 0 ∧ y 1 = 1 then 1 else 0

/-! ## Lemmas on the index scheme -/

theorem chainFun_nil (c : ℕ) : chainFun [] c = c := rfl

theorem chainFun_cons (p : ℕ × ℕ) (ps : List (ℕ × ℕ)) (c : ℕ) :
    chainFun (p :: ps) c = chainFun ps (if c = p.1 then p.2 else c) := rfl

theorem newStateIndicesOf_eq_map (pairs : List (ℕ × ℕ)) (si : List ℕ) :
    newStateIndicesOf si pairs = si.map (chainFun pairs) := by
  induction pairs generalizing si with
  | nil => exact (List.map_id' si).symm
  | cons p ps ih =>
    have h1 : newStateIndicesOf si (p :: ps) = newStateIndicesOf (replaceAll si p.1 p.2) ps := rfl
    rw [h1, ih, replaceAll, List.map_map]
    rfl

theorem chainFun_of_not_source (ps : List (ℕ × ℕ)) (x : ℕ) (h : ∀ p ∈ ps, p.1 ≠ x) :
    chainFun ps x = x := by
  induction ps with
  | nil => rfl
  | cons p ps ih =>
    rw [chainFun_cons, if_neg, ih]
    · exact fun q hq => h q (List.mem_cons_of_mem _ hq)
    · exact fun hx => h p (List.mem_cons_self _ _) hx.symm

theorem chainFun_mem_targets (ps : List (ℕ × ℕ)) (c : ℕ) :
    chainFun ps c ∈ c :: ps.map Prod.snd := by
  induction ps generalizing c with
  | nil => simp [chainFun_nil]
  | cons p ps ih =>
    rw [chainFun_cons]
    rcases List.mem_cons.1 (ih (if c = p.1 then p.2 else c)) with h | h
    · by_cases hc : c = p.1
      · rw [h, if_pos hc]
        simp
      · rw [h, if_neg hc]
        simp
    · simp [List.mem_cons_of_mem _ h]

theorem chainFun_zip_eval (n : ℕ) (ws ts : List ℕ) (c : ℕ) (hlen : ws.length ≤ ts.length)
    (hws : ∀ w ∈ ws, w < n) (hts : ∀ t ∈ ts, n ≤ t) (hc : c < n) :
    chainFun (ws.zip ts) c = if c ∈ ws then ts.getD (ws.indexOf c) 0 else c := by
  induction ws generalizing ts c with
  | nil => simp [chainFun_nil]
  | cons w ws2 ih =>
    cases ts with
    | nil => simp at hlen
    | cons t ts2 =>
      rw [List.zip_cons_cons, chainFun_cons]
      by_cases hcw : c = w
      · subst hcw
        rw [if_pos rfl]
        rw [chainFun_of_not_source]
        · rw [if_pos (List.mem_cons_self _ _), List.indexOf_cons_self]
          rfl
        · intro p hp
          have h1 : p.1 ∈ ws2 := (List.of_mem_zip hp).1
          have h2 : p.1 < n := hws _ (List.mem_cons_of_mem _ h1)
          have h3 : n ≤ t := hts _ (List.mem_cons_self _ _)
          omega
      · rw [if_neg hcw]
        rw [ih ts2 c (by simpa using hlen)
            (fun x hx => hws x (List.mem_cons_of_mem _ hx))
            (fun x hx => hts x (List.mem_cons_of_mem _ hx)) hc]
        have hne : w ≠ c := fun h => hcw h.symm
        rw [List.indexOf_cons_ne _ hne]
        by_cases hmem : c ∈ ws2
        · rw [if_pos hmem, if_pos (List.mem_cons_of_mem _ hmem)]
          rfl
        · rw [if_neg hmem, if_neg (by simp [hcw, hmem])]

theorem abcSlice_zero (n : ℕ) (h : n ≤ 26) : abcSlice 0 n = List.range n := by
  rw [abcSlice, Nat.min_eq_left h, Nat.sub_zero, List.range_eq_range']

theorem abcSlice_fresh (n k : ℕ) (h : n + k ≤ 26) : abcSlice n (n + k) = List.range' n k := by
  rw [abcSlice, Nat.min_eq_left h, Nat.add_sub_cancel_left]

theorem nsi_eq_map (n : ℕ) (wires : List ℕ) (hr : ∀ w ∈ wires, w < n) :
    newStateIndicesOf (List.range n) (wires.zip (List.range' n wires.length)) =
      (List.range n).map (substLetter n wires) := by
  rw [newStateIndicesOf_eq_map]
  refine List.map_congr_left fun c hc => ?_
  have hcn : c < n := List.mem_range.1 hc
  rw [chainFun_zip_eval n wires (List.range' n wires.length) c
      (by rw [List.length_range']) hr
      (fun t ht => ((List.mem_range'_1).1 ht).1) hcn]
  by_cases hmem : c ∈ wires
  · have hidx : wires.indexOf c < wires.length := List.indexOf_lt_length.2 hmem
    rw [if_pos hmem, substLetter, if_pos hmem,
        List.getD_eq_getElem _ _ (by rwa [List.length_range']), List.getElem_range'_1]
  · rw [if_neg hmem, substLetter, if_neg hmem]

theorem substLetter_inj (n : ℕ) (wires : List ℕ) (c1 c2 : ℕ) (h1 : c1 < n) (h2 : c2 < n)
    (h : substLetter n wires c1 = substLetter n wires c2) : c1 = c2 := by
  unfold substLetter at h
  by_cases m1 : c1 ∈ wires <;> by_cases m2 : c2 ∈ wires <;>
    simp only [m1, m2, if_pos, if_neg, if_true, if_false] at h
  · have hi : wires.indexOf c1 = wires.indexOf c2 := by omega
    exact (List.indexOf_inj m1 m2).1 hi
  · omega
  · omega
  · exact h

theorem os_nodup (n : ℕ) (wires : List ℕ) :
    ((List.range n).map (substLetter n wires)).Nodup :=
  List.Nodup.map_on
    (fun x hx y hy hxy =>
      substLetter_inj n wires x y (List.mem_range.1 hx) (List.mem_range.1 hy) hxy)
    (List.nodup_range n)

theorem os_length (n : ℕ) (wires : List ℕ) :
    ((List.range n).map (substLetter n wires)).length = n := by
  rw [List.length_map, List.length_range]

theorem wire_not_mem_os (n : ℕ) (wires : List ℕ) (hr : ∀ w ∈ wires, w < n)
    (w : ℕ) (hw : w ∈ wires) : w ∉ (List.range n).map (substLetter n wires) := by
  intro hmem
  rcases List.mem_map.1 hmem with ⟨c, hc, hsc⟩
  have hcn : c < n := List.mem_range.1 hc
  by_cases hcw : c ∈ wires
  · rw [substLetter, if_pos hcw] at hsc
    have := hr w hw
    omega
  · rw [substLetter, if_neg hcw] at hsc
    exact hcw (hsc ▸ hw)

theorem nonwire_mem_os (n : ℕ) (wires : List ℕ) (p : ℕ) (hp : p < n) (hpw : p ∉ wires) :
    p ∈ (List.range n).map (substLetter n wires) :=
  List.mem_map.2 ⟨p, List.mem_range.2 hp, by rw [substLetter, if_neg hpw]⟩

theorem nonwire_indexOf_os (n : ℕ) (wires : List ℕ) (p : ℕ) (hp : p < n) (hpw : p ∉ wires) :
    ((List.range n).map (substLetter n wires)).indexOf p = p := by
  have hlen : p < ((List.range n).map (substLetter n wires)).length := by
    rw [os_length]; exact hp
  have hval : ((List.range n).map (substLetter n wires))[p] = p := by
    rw [List.getElem_map, List.getElem_range, substLetter, if_neg hpw]
  have := List.indexOf_getElem (os_nodup n wires) p hlen
  rwa [hval] at this

theorem fresh_getElem_os (n : ℕ) (wires : List ℕ) (hnd : wires.Nodup)
    (hr : ∀ w ∈ wires, w < n) (i : ℕ) (hi : i < wires.length) :
    ∀ hq : wires[i] < ((List.range n).map (substLetter n wires)).length,
      ((List.range n).map (substLetter n wires))[wires[i]] = n + i := by
  intro hq
  have hqn : wires[i] < n := hr _ (List.getElem_mem hi)
  rw [List.getElem_map, List.getElem_range, substLetter,
      if_pos (List.getElem_mem hi), List.indexOf_getElem hnd i hi]

theorem fresh_indexOf_os (n : ℕ) (wires : List ℕ) (hnd : wires.Nodup)
    (hr : ∀ w ∈ wires, w < n) (i : ℕ) (hi : i < wires.length) :
    ((List.range n).map (substLetter n wires)).indexOf (n + i) = wires[i] := by
  have hq : wires[i] < ((List.range n).map (substLetter n wires)).length := by
    rw [os_length]; exact hr _ (List.getElem_mem hi)
  have hval := fresh_getElem_os n wires hnd hr i hi hq
  have := List.indexOf_getElem (os_nodup n wires) wires[i] hq
  rwa [hval] at this

theorem fresh_mem_os (n : ℕ) (wires : List ℕ) (hnd : wires.Nodup)
    (hr : ∀ w ∈ wires, w < n) (i : ℕ) (hi : i < wires.length) :
    (n + i) ∈ (List.range n).map (substLetter n wires) := by
  have hq : wires[i] < ((List.range n).map (substLetter n wires)).length := by
    rw [os_length]; exact hr _ (List.getElem_mem hi)
  have hval := fresh_getElem_os n wires hnd hr i hi hq
  exact hval ▸ List.getElem_mem hq

theorem no_assert_fire (n : ℕ) (wires : List ℕ) (hr : ∀ w ∈ wires, w < n)
    (hcap : n + wires.length ≤ 25) :
    25 ∉ List.range n ++ (List.range n).map (substLetter n wires) ++
        List.range' n wires.length ++ wires := by
  intro h
  simp only [List.mem_append] at h
  rcases h with ((h | h) | h) | h
  · have := List.mem_range.1 h
    omega
  · rcases List.mem_map.1 h with ⟨c, hc, hsc⟩
    have hcn : c < n := List.mem_range.1 hc
    by_cases hcw : c ∈ wires
    · rw [substLetter, if_pos hcw] at hsc
      have := List.indexOf_lt_length.2 hcw
      omega
    · rw [substLetter, if_neg hcw] at hsc
      omega
  · have := List.mem_range'_1.1 h
    omega
  · have := hr 25 h
    omega

theorem apply_unitary_einsum_ok {R : Type*} [CommRing R] (n B : ℕ) (wires : List ℕ)
    (mat : Fin (2 ^ wires.length) → Fin (2 ^ wires.length) → R)
    (state : Fin B → (Fin n → Fin 2) → R)
    (hr : ∀ w ∈ wires, w < n) (hcap : n + wires.length ≤ 25) :
    apply_unitary_einsum n B wires mat state = Except.ok (fun b y =>
      einsum2 (List.range' n wires.length ++ wires) (matEntry wires.length mat)
        (List.range n) (fun idx => state b fun p => idx.getD p.val 0)
        ((List.range n).map (substLetter n wires)) (List.ofFn y)) := by
  have h26 : ∀ w ∈ wires, w < 26 := fun w hw => lt_of_lt_of_le (hr w hw) (by omega)
  have hnot : 25 ∉ abcSlice 0 n ++
      newStateIndicesOf (abcSlice 0 n) (wires.zip (abcSlice n (n + wires.length))) ++
      abcSlice n (n + wires.length) ++ wires := by
    rw [abcSlice_zero n (by omega), abcSlice_fresh n wires.length (by omega),
        nsi_eq_map n wires hr]
    exact no_assert_fire n wires hr hcap
  simp only [apply_unitary_einsum]
  rw [dif_pos h26, if_neg hnot, abcSlice_zero n (by omega),
      abcSlice_fresh n wires.length (by omega), nsi_eq_map n wires hr]

theorem sumOver_eq_sum {R : Type*} [CommRing R] (ls : List ℕ) (hnd : ls.Nodup)
    (f : (ℕ → Fin 2) → R) (v : ℕ → Fin 2) :
    sumOver ls f v = ∑ c : Fin ls.length → Fin 2,
      f (fun ℓ => if ℓ ∈ ls then (List.ofFn c).getD (ls.indexOf ℓ) 0 else v ℓ) := by
  induction ls generalizing v with
  | nil =>
    haveI : IsEmpty (Fin ([] : List ℕ).length) :=
      ⟨fun i => Nat.not_lt_zero i.1 (by simpa using i.2)⟩
    rw [sumOver, Fintype.sum_unique]
    exact congrArg f (funext fun ℓ => (if_neg (List.not_mem_nil ℓ)).symm)
  | cons a ls2 ih =>
    have hnmem : a ∉ ls2 := (List.nodup_cons.1 hnd).1
    rw [sumOver]
    calc (∑ b : Fin 2, sumOver ls2 f (Function.update v a b))
        = ∑ b : Fin 2, ∑ c : Fin ls2.length → Fin 2,
            f (fun ℓ => if ℓ ∈ ls2 then (List.ofFn c).getD (ls2.indexOf ℓ) 0
                        else Function.update v a b ℓ) :=
          Finset.sum_congr rfl fun b _ =>
            ih (List.nodup_cons.1 hnd).2 (Function.update v a b)
      _ = ∑ p : Fin 2 × (Fin ls2.length → Fin 2),
            f (fun ℓ => if ℓ ∈ a :: ls2
                        then (List.ofFn (Fin.cons p.1 p.2)).getD ((a :: ls2).indexOf ℓ) 0
                        else v ℓ) := by
          rw [Fintype.sum_prod_type]
          refine Finset.sum_congr rfl fun b _ => Finset.sum_congr rfl fun c _ =>
            congrArg f (funext fun ℓ => ?_)
          have hofn : List.ofFn (Fin.cons (α := fun _ => Fin 2) b c) = b :: List.ofFn c := by
            rw [List.ofFn_succ]
            simp [Fin.cons_zero, Fin.cons_succ]
          by_cases hla : ℓ = a
          · subst hla
            rw [if_neg hnmem, Function.update_same, if_pos (List.mem_cons_self _ _),
                hofn, List.indexOf_cons_self, List.getD_cons_zero]
          · by_cases hl2 : ℓ ∈ ls2
            · rw [if_pos hl2, if_pos (List.mem_cons_of_mem _ hl2), hofn,
                  List.indexOf_cons_ne _ (fun h => hla h.symm)]
              rw [Nat.succ_eq_add_one, List.getD_cons_succ]
            · rw [if_neg hl2, if_neg (by simp [hla, hl2]), Function.update_noteq hla]
      _ = ∑ c : Fin (a :: ls2).length → Fin 2,
            f (fun ℓ => if ℓ ∈ a :: ls2
                        then (List.ofFn c).getD ((a :: ls2).indexOf ℓ) 0
                        else v ℓ) :=
          Equiv.sum_comp (Fin.consEquiv fun _ => Fin 2)
            (fun c => f (fun ℓ => if ℓ ∈ a :: ls2
                        then (List.ofFn c).getD ((a :: ls2).indexOf ℓ) 0
                        else v ℓ))

theorem dedup_append_of_subset {α : Type*} [DecidableEq α] (l1 l2 : List α)
    (h : ∀ a ∈ l1, a ∈ l2) : (l1 ++ l2).dedup = l2.dedup := by
  induction l1 with
  | nil => rfl
  | cons a l1 ih =>
    rw [List.cons_append,
        List.dedup_cons_of_mem (List.mem_append.2 (Or.inr (h a (List.mem_cons_self _ _)))),
        ih (fun x hx => h x (List.mem_cons_of_mem _ hx))]

theorem prod_delta {R : Type*} [CommRing R] (n : ℕ) (wires : List ℕ) (y x : Fin n → Fin 2) :
    (∏ p : Fin n, if (p : Fin n).val ∈ wires then (1 : R) else if y p = x p then 1 else 0) =
      if (∀ p : Fin n, p.val ∉ wires → x p = y p) then 1 else 0 := by
  by_cases h : ∀ p : Fin n, p.val ∉ wires → x p = y p
  · rw [if_pos h]
    apply Finset.prod_eq_one
    intro p _
    by_cases hp : p.val ∈ wires
    · rw [if_pos hp]
    · rw [if_neg hp, if_pos (h p hp).symm]
  · rw [if_neg h]
    push_neg at h
    rcases h with ⟨p, hpw, hpx⟩
    refine Finset.prod_eq_zero (Finset.mem_univ p) ?_
    rw [if_neg hpw, if_neg (fun hy => hpx hy.symm)]

theorem sumLs_eq_filterW (n : ℕ) (wires : List ℕ) (hnd : wires.Nodup)
    (hr : ∀ w ∈ wires, w < n) :
    (((List.range' n wires.length ++ wires) ++ List.range n).filter
        (fun ℓ => decide (ℓ ∉ (List.range n).map (substLetter n wires)))).dedup =
      (List.range n).filter (fun p => decide (p ∈ wires)) := by
  have hf1 : (List.range' n wires.length).filter
      (fun ℓ => decide (ℓ ∉ (List.range n).map (substLetter n wires))) = [] := by
    rw [List.filter_eq_nil_iff]
    intro a ha
    have hmem := List.mem_range'_1.1 ha
    have hfm := fresh_mem_os n wires hnd hr (a - n) (by omega)
    rw [show n + (a - n) = a by omega] at hfm
    simp [hfm]
  have hf2 : wires.filter
      (fun ℓ => decide (ℓ ∉ (List.range n).map (substLetter n wires))) = wires :=
    List.filter_eq_self.2 fun w hw => by simp [wire_not_mem_os n wires hr w hw]
  have hf3 : (List.range n).filter
      (fun ℓ => decide (ℓ ∉ (List.range n).map (substLetter n wires))) =
      (List.range n).filter (fun p => decide (p ∈ wires)) := by
    refine List.filter_congr fun p hp => ?_
    have hpn : p < n := List.mem_range.1 hp
    by_cases hpw : p ∈ wires
    · simp [hpw, wire_not_mem_os n wires hr p hpw]
    · simp [hpw, nonwire_mem_os n wires p hpn hpw]
  rw [List.filter_append, List.filter_append, hf1, hf2, hf3, List.nil_append,
      dedup_append_of_subset _ _
        (fun w hw => List.mem_filter.2 ⟨List.mem_range.2 (hr w hw), by simpa using hw⟩),
      List.Nodup.dedup (List.Nodup.filter _ (List.nodup_range n))]

theorem sum_embOp_filter {R : Type*} [CommRing R] (n B : ℕ) (wires : List ℕ)
    (mat : Fin (2 ^ wires.length) → Fin (2 ^ wires.length) → R)
    (state : Fin B → (Fin n → Fin 2) → R) (b : Fin B) (y : Fin n → Fin 2) :
    (∑ x ∈ Finset.univ.filter (fun x : Fin n → Fin 2 => ∀ p : Fin n, p.val ∉ wires → x p = y p),
        embeddedOperator n wires mat y x * state b x) =
      ∑ x : Fin n → Fin 2, embeddedOperator n wires mat y x * state b x := by
  rw [Finset.sum_filter]
  refine Finset.sum_congr rfl fun x _ => ?_
  by_cases hcond : ∀ p : Fin n, p.val ∉ wires → x p = y p
  · rw [if_pos hcond]
  · rw [if_neg hcond]
    simp only [embeddedOperator]
    rw [prod_delta n wires y x, if_neg hcond, mul_zero, zero_mul]

/-- C1: on a valid call (distinct in-range wires, enough symbol capacity),
`apply_unitary_einsum` returns, for every batch index, the state obtained by
multiplying the flattened state vector with the identity-embedded operator of
the spec (`embeddedOperator`) — basis states of the flattened
`2^n`-dimensional space being indexed by their row-major bit tuples, exactly
as `torch.reshape` flattens `(batch, 2, …, 2)` to `(batch, 2^n)`. -/
theorem apply_unitary_einsum_equiv_embedded (n B : ℕ) (wires : List ℕ)
    (mat : Fin (2 ^ wires.length) → Fin (2 ^ wires.length) → ℂ)
    (state : Fin B → (Fin n → Fin 2) → ℂ)
    (hnd : wires.Nodup) (hr : ∀ w ∈ wires, w < n) (hcap : n + wires.length ≤ 25) :
    apply_unitary_einsum n B wires mat state =
      Except.ok fun b y =>
        ∑ x : Fin n → Fin 2, embeddedOperator n wires mat y x * state b x := by
  rw [apply_unitary_einsum_ok n B wires mat state hr hcap]
  refine congrArg Except.ok (funext fun b => funext fun y => ?_)
  simp only [einsum2]
  rw [sumLs_eq_filterW n wires hnd hr]
  have hWnd : ((List.range n).filter (fun p => decide (p ∈ wires))).Nodup :=
    List.Nodup.filter _ (List.nodup_range n)
  rw [sumOver_eq_sum _ hWnd]
  set W := (List.range n).filter (fun p => decide (p ∈ wires)) with hWdef
  have hWsub : ∀ p ∈ W, p < n ∧ p ∈ wires := by
    intro p hp
    have := List.mem_filter.1 hp
    exact ⟨List.mem_range.1 this.1, by simpa using this.2⟩
  have hWof : ∀ w ∈ wires, w ∈ W := fun w hw =>
    List.mem_filter.2 ⟨List.mem_range.2 (hr w hw), by simpa using hw⟩
  -- Step 1: rewrite each summand into embedded-operator form at the
  -- overridden basis state.
  have hstep1 : ∀ c : Fin W.length → Fin 2,
      (matEntry wires.length mat
        ((List.range' n wires.length ++ wires).map fun ℓ =>
          if ℓ ∈ W then (List.ofFn c).getD (W.indexOf ℓ) 0
          else if ℓ ∈ (List.range n).map (substLetter n wires)
               then (List.ofFn y).getD (((List.range n).map (substLetter n wires)).indexOf ℓ) 0
               else 0) *
       state b fun p =>
         ((List.range n).map fun ℓ =>
           if ℓ ∈ W then (List.ofFn c).getD (W.indexOf ℓ) 0
           else if ℓ ∈ (List.range n).map (substLetter n wires)
                then (List.ofFn y).getD (((List.range n).map (substLetter n wires)).indexOf ℓ) 0
                else 0).getD p.val 0) =
      embeddedOperator n wires mat y (overrideWires n W y c) *
        state b (overrideWires n W y c) := by
    intro c
    have hS : (fun p : Fin n =>
        ((List.range n).map fun ℓ =>
          if ℓ ∈ W then (List.ofFn c).getD (W.indexOf ℓ) 0
          else if ℓ ∈ (List.range n).map (substLetter n wires)
               then (List.ofFn y).getD (((List.range n).map (substLetter n wires)).indexOf ℓ) 0
               else 0).getD p.val 0) = overrideWires n W y c := by
      funext p
      have hlt : p.val < ((List.range n).map fun ℓ =>
          if ℓ ∈ W then (List.ofFn c).getD (W.indexOf ℓ) 0
          else if ℓ ∈ (List.range n).map (substLetter n wires)
               then (List.ofFn y).getD (((List.range n).map (substLetter n wires)).indexOf ℓ) 0
               else 0).length := by
        simp [p.isLt]
      rw [List.getD_eq_getElem _ _ hlt, List.getElem_map, List.getElem_range, overrideWires]
      by_cases hpW : p.val ∈ W
      · simp only [if_pos hpW]
      · rw [if_neg hpW, if_neg hpW]
        have hpw : p.val ∉ wires := fun hw => hpW (hWof _ hw)
        rw [if_pos (nonwire_mem_os n wires p.val p.isLt hpw),
            nonwire_indexOf_os n wires p.val p.isLt hpw,
            List.getD_eq_getElem _ _ (by simp [p.isLt]), List.getElem_ofFn]
    have hA : ((List.range' n wires.length ++ wires).map fun ℓ =>
        if ℓ ∈ W then (List.ofFn c).getD (W.indexOf ℓ) 0
        else if ℓ ∈ (List.range n).map (substLetter n wires)
             then (List.ofFn y).getD (((List.range n).map (substLetter n wires)).indexOf ℓ) 0
             else 0) =
        wires.map (bitAt y) ++ wires.map (bitAt (overrideWires n W y c)) := by
      rw [List.map_append]
      congr 1
      · refine List.ext_getElem (by simp) fun i h1 h2 => ?_
        have hiK : i < wires.length := by simpa using h2
        rw [List.getElem_map, List.getElem_map, List.getElem_range'_1]
        have hnW : (n + i) ∉ W := fun hmem => by
          have := (hWsub _ hmem).1
          omega
        rw [if_neg hnW, if_pos (fresh_mem_os n wires hnd hr i hiK),
            fresh_indexOf_os n wires hnd hr i hiK]
        have hwi : wires[i] < n := hr _ (List.getElem_mem hiK)
        rw [List.getD_eq_getElem _ _ (by simp [hwi]), List.getElem_ofFn, bitAt, dif_pos hwi]
      · refine List.map_congr_left fun w hw => ?_
        have hwW : w ∈ W := hWof w hw
        have hwn : w < n := hr w hw
        simp [bitAt, overrideWires, hwn, hwW]
    rw [hS, hA, matEntry]
    have hlen1 : wires.length = (wires.map (bitAt y)).length := (List.length_map _ _).symm
    have htake : (wires.map (bitAt y) ++ wires.map (bitAt (overrideWires n W y c))).take
        wires.length = wires.map (bitAt y) := by
      rw [hlen1]
      exact List.take_left _ _
    have hdrop : (wires.map (bitAt y) ++ wires.map (bitAt (overrideWires n W y c))).drop
        wires.length = wires.map (bitAt (overrideWires n W y c)) := by
      rw [hlen1]
      exact List.drop_left _ _
    simp only [htake, hdrop]
    rw [embeddedOperator]
    have hprod : (∏ p : Fin n, if (p : Fin n).val ∈ wires then (1 : ℂ)
        else if y p = overrideWires n W y c p then 1 else 0) = 1 := by
      refine Finset.prod_eq_one fun p _ => ?_
      by_cases hp : p.val ∈ wires
      · rw [if_pos hp]
      · have hov : overrideWires n W y c p = y p := by
          simp only [overrideWires]
          rw [if_neg (fun hmem => hp (hWsub _ hmem).2)]
        rw [if_neg hp, hov, if_pos rfl]
    rw [hprod, mul_one]
  rw [Finset.sum_congr rfl fun c _ => hstep1 c]
  -- Step 2: reindex the sum over wire-bit assignments as a sum over the
  -- basis states agreeing with `y` off the wires, then extend to the full
  -- basis (the delta factor kills the remaining terms).
  rw [← sum_embOp_filter n B wires mat state b y]
  refine Finset.sum_nbij' (fun c => overrideWires n W y c)
    (fun x jj => x ⟨W.get ⟨jj.val, jj.isLt⟩,
      List.mem_range.1 (List.mem_filter.1 (List.getElem_mem jj.isLt)).1⟩)
    (fun c _ => ?_) (fun x _ => Finset.mem_univ _) (fun c _ => ?_) (fun x hx => ?_)
    (fun c _ => rfl)
  · refine Finset.mem_filter.2 ⟨Finset.mem_univ _, fun p hp => ?_⟩
    simp only [overrideWires]
    rw [if_neg (fun hmem => hp (hWsub _ hmem).2)]
  · funext jj
    have hmem : W[jj.val] ∈ W := List.getElem_mem jj.isLt
    simp only [List.get_eq_getElem, overrideWires]
    rw [if_pos hmem, List.indexOf_getElem hWnd jj.val jj.isLt,
        List.getD_eq_getElem _ _ (by simp [jj.isLt]), List.getElem_ofFn]
  · have hcond := (Finset.mem_filter.1 hx).2
    funext p
    simp only [overrideWires]
    by_cases hpW : p.val ∈ W
    · rw [if_pos hpW]
      have hidx : W.indexOf p.val < W.length := List.indexOf_lt_length.2 hpW
      rw [List.getD_eq_getElem _ _ (by simp [hidx]), List.getElem_ofFn]
      exact congrArg x (Fin.ext (List.getElem_indexOf hidx))
    · rw [if_neg hpW]
      exact ((hcond p) (fun hw => hpW (hWof _ hw))).symm

/-- Witness for C1 at the concrete call `n = 1`, `B = 1`, `wires = [0]`,
all-ones matrix and state. -/
theorem apply_unitary_einsum_equiv_embedded_witness :
    apply_unitary_einsum 1 1 [0] (fun _ _ => (1 : ℂ)) (fun _ _ => (1 : ℂ)) =
      Except.ok fun _ y => ∑ x : Fin 1 → Fin 2,
        embeddedOperator 1 [0] (fun _ _ => (1 : ℂ)) y x * 1 :=
  apply_unitary_einsum_equiv_embedded 1 1 [0] (fun _ _ => (1 : ℂ)) (fun _ _ => (1 : ℂ))
    (by decide) (by decide) (by decide)

theorem no_assert_fire2 (n : ℕ) (wires : List ℕ) (h25 : 25 ∉ wires)
    (hcap : n + wires.length ≤ 25) :
    25 ∉ List.range n ++
        newStateIndicesOf (List.range n) (wires.zip (List.range' n wires.length)) ++
        List.range' n wires.length ++ wires := by
  intro h
  simp only [List.mem_append] at h
  rcases h with ((h | h) | h) | h
  · have := List.mem_range.1 h
    omega
  · rw [newStateIndicesOf_eq_map] at h
    rcases List.mem_map.1 h with ⟨c, hc, hcf⟩
    have hcn : c < n := List.mem_range.1 hc
    have hmem := chainFun_mem_targets (wires.zip (List.range' n wires.length)) c
    rw [hcf] at hmem
    rcases List.mem_cons.1 hmem with h25c | htar
    · omega
    · rcases List.mem_map.1 htar with ⟨pr, hpr, hsnd⟩
      have := (List.of_mem_zip hpr).2
      rw [hsnd] at this
      have := List.mem_range'_1.1 this
      omega
  · have := List.mem_range'_1.1 h
    omega
  · exact h25 h

/-- C6 (amended): `apply_unitary_einsum` performs no validation of the wire
set and no `InvalidWireSet` failure exists in the code: every wire list all
of whose wires are below 25 and which fits the symbol capacity
(`n + len(wires) ≤ 25`) is accepted without error — duplicates and
out-of-range wires included — and the only wire-triggered failures come from
the symbol scheme itself: a wire at or beyond the 26-letter alphabet fails
the symbol lookup with an index error, and an in-alphabet wire list that
reaches the reserved batch letter (a wire equal to 25, or
`n + len(wires) ≥ 26`) fails the capacity assert with `IndexExhaustion`. -/
theorem apply_unitary_einsum_no_wire_validation (n B : ℕ) :
    (∀ (wires : List ℕ) (mat : Fin (2 ^ wires.length) → Fin (2 ^ wires.length) → ℂ)
        (state : Fin B → (Fin n → Fin 2) → ℂ),
      (∀ w ∈ wires, w < 25) → n + wires.length ≤ 25 →
        errOf (apply_unitary_einsum n B wires mat state) = none) ∧
    (∀ (wires : List ℕ) (mat : Fin (2 ^ wires.length) → Fin (2 ^ wires.length) → ℂ)
        (state : Fin B → (Fin n → Fin 2) → ℂ),
      (∃ w ∈ wires, 26 ≤ w) →
        errOf (apply_unitary_einsum n B wires mat state) = some EngineError.indexError) ∧
    (∀ (wires : List ℕ) (mat : Fin (2 ^ wires.length) → Fin (2 ^ wires.length) → ℂ)
        (state : Fin B → (Fin n → Fin 2) → ℂ),
      (∀ w ∈ wires, w < 26) → (25 ∈ wires ∨ 26 ≤ n + wires.length) →
        errOf (apply_unitary_einsum n B wires mat state) = some EngineError.indexExhaustion) := by
  refine ⟨?_, ?_, ?_⟩
  · intro wires mat state hlt hcap
    have h26 : ∀ w ∈ wires, w < 26 := fun w hw => Nat.lt_of_lt_of_le (hlt w hw) (by omega)
    have h25 : 25 ∉ wires := fun hm => absurd (hlt 25 hm) (by omega)
    simp only [apply_unitary_einsum]
    rw [dif_pos h26, abcSlice_zero n (by omega), abcSlice_fresh n wires.length (by omega),
        if_neg (no_assert_fire2 n wires h25 hcap)]
    rfl
  · intro wires mat state hex
    have hnot : ¬ ∀ w ∈ wires, w < 26 := by
      rcases hex with ⟨w, hw, hge⟩
      intro hall
      exact absurd (hall w hw) (by omega)
    simp only [apply_unitary_einsum]
    rw [dif_neg hnot]
    rfl
  · intro wires mat state h26 hor
    simp only [apply_unitary_einsum]
    rw [dif_pos h26]
    have hmem : 25 ∈ abcSlice 0 n ++
        newStateIndicesOf (abcSlice 0 n) (wires.zip (abcSlice n (n + wires.length))) ++
        abcSlice n (n + wires.length) ++ wires := by
      rcases hor with h | h
      · exact List.mem_append.2 (Or.inr h)
      · by_cases hn : n ≤ 25
        · refine List.mem_append.2 (Or.inl (List.mem_append.2 (Or.inr ?_)))
          unfold abcSlice
          exact List.mem_range'_1.2 ⟨hn, by omega⟩
        · refine List.mem_append.2 (Or.inl (List.mem_append.2 (Or.inl
            (List.mem_append.2 (Or.inl ?_)))))
          unfold abcSlice
          exact List.mem_range'_1.2 ⟨by omega, by omega⟩
    rw [if_pos hmem]
    rfl

/-- Witness for the amended C6 at concrete inputs for each clause: the
duplicate wire list `[0, 0]` on a 2-qubit state is accepted without error,
the out-of-alphabet wire list `[27]` fails with the index error, and the
reserved-letter wire list `[25]` fails with the capacity assert. -/
theorem apply_unitary_einsum_no_wire_validation_witness :
    errOf (apply_unitary_einsum 2 1 [0, 0] (fun _ _ => (1 : ℂ)) (fun _ _ => (1 : ℂ))) = none ∧
    errOf (apply_unitary_einsum 2 1 [27] (fun _ _ => (1 : ℂ)) (fun _ _ => (1 : ℂ))) =
      some EngineError.indexError ∧
    errOf (apply_unitary_einsum 2 1 [25] (fun _ _ => (1 : ℂ)) (fun _ _ => (1 : ℂ))) =
      some EngineError.indexExhaustion :=
  ⟨(apply_unitary_einsum_no_wire_validation 2 1).1 [0, 0]
      (fun _ _ => (1 : ℂ)) (fun _ _ => (1 : ℂ)) (by decide) (by decide),
   (apply_unitary_einsum_no_wire_validation 2 1).2.1 [27]
      (fun _ _ => (1 : ℂ)) (fun _ _ => (1 : ℂ)) ⟨27, by decide, by decide⟩,
   (apply_unitary_einsum_no_wire_validation 2 1).2.2 [25]
      (fun _ _ => (1 : ℂ)) (fun _ _ => (1 : ℂ)) (by decide) (Or.inl (by decide))⟩

/-- Counterexample to C6 as stated: a duplicate wire list (`[0, 0]`) and an
out-of-range wire (`[5]` on a 2-qubit state) are both accepted without any
error — no eager `InvalidWireSet` failure happens. -/
theorem invalidWireSet_never_raised :
    errOf (apply_unitary_einsum 2 1 [0, 0] (fun _ _ => (0 : ℂ)) (fun _ _ => 0)) = none ∧
    errOf (apply_unitary_einsum 2 1 [5] (fun _ _ => (0 : ℂ)) (fun _ _ => 0)) = none := by
  constructor
  · decide
  · decide

/-- C5 (amended): for distinct-or-not in-range wires over an `n`-qubit state
with `n ≤ 25`, the engine fails with `IndexExhaustion` exactly when the
26-letter alphabet cannot supply `n` state symbols, `k = len(wires)` fresh
symbols and the reserved batch symbol, i.e. exactly when
`n + k + 1 > 26`; the threshold depends on the wire count as well as the
qubit count, not on the qubit count alone. -/
theorem indexExhaustion_iff (n B : ℕ) (wires : List ℕ)
    (mat : Fin (2 ^ wires.length) → Fin (2 ^ wires.length) → ℂ)
    (state : Fin B → (Fin n → Fin 2) → ℂ)
    (hr : ∀ w ∈ wires, w < n) (hn : n ≤ 25) :
    errOf (apply_unitary_einsum n B wires mat state) = some EngineError.indexExhaustion ↔
      26 ≤ n + wires.length := by
  have h26 : ∀ w ∈ wires, w < 26 := fun w hw => lt_of_lt_of_le (hr w hw) (by omega)
  have hni : 26 ≤ n + wires.length → 25 ∈ abcSlice n (n + wires.length) := by
    intro h
    rw [abcSlice]
    exact List.mem_range'_1.2 ⟨hn, by omega⟩
  have hni2 : 25 ∈ abcSlice n (n + wires.length) → 26 ≤ n + wires.length := by
    intro h
    rw [abcSlice] at h
    have := List.mem_range'_1.1 h
    omega
  simp only [apply_unitary_einsum]
  rw [dif_pos h26]
  by_cases hc : 25 ∈ abcSlice 0 n ++
      newStateIndicesOf (abcSlice 0 n) (wires.zip (abcSlice n (n + wires.length))) ++
      abcSlice n (n + wires.length) ++ wires
  · rw [if_pos hc]
    simp only [errOf, true_iff, iff_true]
    simp only [List.mem_append] at hc
    rcases hc with ((h | h) | h) | h
    · rw [abcSlice_zero n (by omega)] at h
      have := List.mem_range.1 h
      omega
    · rw [abcSlice_zero n (by omega), newStateIndicesOf_eq_map] at h
      rcases List.mem_map.1 h with ⟨c, hcm, hcf⟩
      have hcn : c < n := List.mem_range.1 hcm
      have hmem := chainFun_mem_targets (wires.zip (abcSlice n (n + wires.length))) c
      rw [hcf] at hmem
      rcases List.mem_cons.1 hmem with h25c | htar
      · omega
      · rcases List.mem_map.1 htar with ⟨pr, hpr, hsnd⟩
        have h2 := (List.of_mem_zip hpr).2
        rw [hsnd] at h2
        exact hni2 h2
    · exact hni2 h
    · have := hr 25 h
      omega
  · rw [if_neg hc]
    simp only [errOf]
    constructor
    · intro h
      exact absurd h (by simp)
    · intro h
      exact absurd (List.mem_append.2 (Or.inl (List.mem_append.2 (Or.inr (hni h))))) hc

/-- Witness for the amended C5 on both sides of the boundary: at `n = 13`
with one wire the call is not an `IndexExhaustion` failure (`13 + 1 < 26`),
while with all 13 wires it is (`13 + 13 ≥ 26`). -/
theorem indexExhaustion_iff_witness :
    (errOf (apply_unitary_einsum 13 1 [0] (fun _ _ => (0 : ℂ)) (fun _ _ => 0)) =
        some EngineError.indexExhaustion ↔ 26 ≤ 13 + ([0] : List ℕ).length) ∧
    (errOf (apply_unitary_einsum 13 1 (List.range 13) (fun _ _ => (0 : ℂ)) (fun _ _ => 0)) =
        some EngineError.indexExhaustion ↔ 26 ≤ 13 + (List.range 13).length) :=
  ⟨indexExhaustion_iff 13 1 [0] (fun _ _ => (0 : ℂ)) (fun _ _ => 0) (by decide) (by decide),
   indexExhaustion_iff 13 1 (List.range 13) (fun _ _ => (0 : ℂ)) (fun _ _ => 0)
     (by decide) (by decide)⟩

/-- Counterexample to C5 as stated: at 13 qubits the documented capacity
condition `26 > 2·13 + 1` already fails, yet the engine succeeds for the
single-wire list `[0]` — the failure threshold is not a function of the
qubit count alone. -/
theorem indexExhaustion_not_qubit_count_alone :
    (26 ≤ 2 * 13 + 1) ∧
      errOf (apply_unitary_einsum 13 1 [0] (fun _ _ => (1 : ℂ)) (fun _ _ => 1)) = none := by
  constructor
  · decide
  · decide

theorem sumOver_map {R S : Type*} [CommRing R] [CommRing S] (φ : R →+* S)
    (ls : List ℕ) (f : (ℕ → Fin 2) → R) (v : ℕ → Fin 2) :
    sumOver ls (fun u => φ (f u)) v = φ (sumOver ls f v) := by
  induction ls generalizing v with
  | nil => rfl
  | cons a ls2 ih =>
    rw [sumOver, sumOver, map_sum]
    exact Finset.sum_congr rfl fun b _ => ih (Function.update v a b)

theorem einsum2_map {R S : Type*} [CommRing R] [CommRing S] (φ : R →+* S)
    (ms : List ℕ) (A : List (Fin 2) → R) (ss : List ℕ) (S2 : List (Fin 2) → R)
    (os : List ℕ) (out : List (Fin 2)) :
    einsum2 ms (fun idx => φ (A idx)) ss (fun idx => φ (S2 idx)) os out =
      φ (einsum2 ms A ss S2 os out) := by
  simp only [einsum2]
  rw [show (fun v => φ (A (ms.map v)) * φ (S2 (ss.map v))) =
      (fun v => φ (A (ms.map v) * S2 (ss.map v))) from funext fun v => (map_mul φ _ _).symm]
  exact sumOver_map φ _ _ _

theorem apply_unitary_einsum_map {R S : Type*} [CommRing R] [CommRing S] (φ : R →+* S)
    (n B : ℕ) (wires : List ℕ)
    (mat : Fin (2 ^ wires.length) → Fin (2 ^ wires.length) → R)
    (state : Fin B → (Fin n → Fin 2) → R) :
    apply_unitary_einsum n B wires (fun i j => φ (mat i j)) (fun b y => φ (state b y)) =
      (apply_unitary_einsum n B wires mat state).map (fun f => fun b y => φ (f b y)) := by
  simp only [apply_unitary_einsum]
  by_cases h26 : ∀ w ∈ wires, w < 26
  · rw [dif_pos h26, dif_pos h26]
    by_cases hc : 25 ∈ abcSlice 0 n ++
        newStateIndicesOf (abcSlice 0 n) (wires.zip (abcSlice n (n + wires.length))) ++
        abcSlice n (n + wires.length) ++ wires
    · rw [if_pos hc, if_pos hc]
      rfl
    · rw [if_neg hc, if_neg hc]
      simp only [Except.map]
      refine congrArg Except.ok (funext fun b => funext fun y => ?_)
      exact einsum2_map φ _ (matEntry wires.length mat) _
        (fun idx => state b fun p => idx.getD p.val 0) _ _
  · rw [dif_neg h26, dif_neg h26]
    rfl

theorem okAt_map {R S : Type*} [CommRing R] [CommRing S] (φ : R →+* S) {n B : ℕ}
    (r : Except EngineError (Fin B → (Fin n → Fin 2) → R)) (b : Fin B) (y : Fin n → Fin 2) :
    okAt (r.map (fun f => fun b y => φ (f b y))) b y = φ (okAt r b y) := by
  cases r with
  | ok f => rfl
  | error e => simp [okAt, Except.map, map_zero]

theorem okAt_int_cast (n B : ℕ) (wires : List ℕ)
    (mz : Fin (2 ^ wires.length) → Fin (2 ^ wires.length) → ℤ)
    (sz : Fin B → (Fin n → Fin 2) → ℤ) (b : Fin B) (y : Fin n → Fin 2) :
    okAt (apply_unitary_einsum n B wires (fun i j => ((mz i j : ℤ) : ℂ))
        (fun b2 y2 => ((sz b2 y2 : ℤ) : ℂ))) b y =
      ((okAt (apply_unitary_einsum n B wires mz sz) b y : ℤ) : ℂ) := by
  have h := apply_unitary_einsum_map (Int.castRingHom ℂ) n B wires mz sz
  rw [show (fun i j => ((mz i j : ℤ) : ℂ)) = (fun i j => (Int.castRingHom ℂ) (mz i j))
        from rfl,
      show (fun b2 y2 => ((sz b2 y2 : ℤ) : ℂ)) = (fun b2 y2 => (Int.castRingHom ℂ) (sz b2 y2))
        from rfl, h, okAt_map]
  rfl

/-- C9: the index substitution is order-preserving over the given wire list:
applying the CNOT matrix to the 2-qubit state `|01⟩` with `wires = [0, 1]`
and with `wires = [1, 0]` produces different output states (they differ in
the `|11⟩` amplitude). -/
theorem cnot_wire_order_sensitive :
    okAt (apply_unitary_einsum 2 1 [0, 1] (fun i j => ((cnotZ i j : ℤ) : ℂ))
        (fun b y => ((state01Z b y : ℤ) : ℂ))) 0 (fun _ => 1) ≠
      okAt (apply_unitary_einsum 2 1 [1, 0] (fun i j => ((cnotZ i j : ℤ) : ℂ))
        (fun b y => ((state01Z b y : ℤ) : ℂ))) 0 (fun _ => 1) := by
  intro heq
  rw [okAt_int_cast, okAt_int_cast] at heq
  have h2 := Int.cast_injective (α := ℂ) heq
  have hL : okAt (apply_unitary_einsum 2 1 [0, 1] cnotZ state01Z) 0 (fun _ => 1) = 0 := by
    decide
  have hR : okAt (apply_unitary_einsum 2 1 [1, 0] cnotZ state01Z) 0 (fun _ => 1) = 1 := by
    decide
  rw [hL, hR] at h2
  exact absurd h2 (by decide)

/-! ## Lemmas on the tensor model -/

theorem ptMap_shape (f : ℂ → ℂ) (t : PTensor) : (ptMap f t).shape = t.shape := rfl

theorem ptZip_shape (f : ℂ → ℂ → ℂ) (a b : PTensor) : (ptZip f a b).shape = a.shape := rfl

theorem catLast_shape (a b : PTensor) :
    (catLast a b).shape = a.shape.dropLast ++ [lastDim a + lastDim b] := rfl

theorem stack2Last_shape (a b : PTensor) : (stack2Last a b).shape = a.shape ++ [2] := rfl

theorem zerosPT_shape (s : List ℕ) : (zerosPT s).shape = s := rfl

theorem onesPT_shape (s : List ℕ) : (onesPT s).shape = s := rfl

theorem colUnsq_shape (t : PTensor) (c : ℕ) : (colUnsq t c).shape = [t.shape.headD 0, 1] := rfl

theorem repeatDim0_shape (B : ℕ) (t : PTensor) : (repeatDim0 B t).shape = B :: t.shape.tail := rfl

theorem unsqueeze0_shape (t : PTensor) : (unsqueeze0 t).shape = 1 :: t.shape := rfl

theorem set44_shape (t : PTensor) (i j : ℕ) (v : PTensor) : (set44 t i j v).shape = t.shape := rfl

theorem diag_mk (b d : ℕ) (dat : List ℂ) :
    diag ⟨[b, d], dat⟩ = ⟨[b, d, d], (chunksOf d dat).flatMap fun row =>
      (List.range d).flatMap fun i => (List.range d).map fun j =>
        if i = j then row.getD i 0 else 0⟩ := rfl

theorem squeeze0_shape (t : PTensor) :
    (squeeze0 t).shape = if t.shape.head? = some 1 then t.shape.tail else t.shape := by
  rw [squeeze0]
  by_cases h : t.shape.head? = some 1
  · rw [if_pos h, if_pos h]
  · rw [if_neg h, if_neg h]

theorem squeeze0_data (t : PTensor) : (squeeze0 t).data = t.data := by
  rw [squeeze0]
  by_cases h : t.shape.head? = some 1
  · rw [if_pos h]
  · rw [if_neg h]

theorem chunksOf_one (l : List ℂ) : chunksOf 1 l = l.map fun a => [a] := by
  induction l with
  | nil => rw [chunksOf, List.map_nil]
  | cons a l ih =>
    rw [chunksOf]
    simp [ih]

theorem chunksOf_two_flatMap (xs : List ℂ) (f g : ℂ → ℂ) :
    chunksOf 2 (xs.flatMap fun z => [f z, g z]) = xs.map fun z => [f z, g z] := by
  induction xs with
  | nil => rw [List.flatMap_nil, chunksOf, List.map_nil]
  | cons a xs ih =>
    rw [List.flatMap_cons, List.cons_append, List.cons_append, List.nil_append, chunksOf]
    simp [ih]

/-- C4 (amended): every parametric generator ends in `.squeeze(0)`, so for a
parameter input with `B` rows the returned matrix carries a leading batch
axis of size `B` only when `B ≠ 1`; for `B = 1` the leading axis is removed
and the result is the unbatched `2^k × 2^k` matrix. -/
theorem generators_batch_axis (B n : ℕ) (p p3 : PTensor)
    (hp : p.shape = [B, 1]) (hp3 : p3.shape = [B, 3]) :
    (rx_matrix p).shape = (if B = 1 then [2, 2] else [B, 2, 2]) ∧
    (ry_matrix p).shape = (if B = 1 then [2, 2] else [B, 2, 2]) ∧
    (rz_matrix p).shape = (if B = 1 then [2, 2] else [B, 2, 2]) ∧
    (phaseshift_matrix p).shape = (if B = 1 then [2, 2] else [B, 2, 2]) ∧
    (rot_matrix p3).shape = (if B = 1 then [2, 2] else [B, 2, 2]) ∧
    (multirz_matrix p n).shape = (if B = 1 then [2 ^ n, 2 ^ n] else [B, 2 ^ n, 2 ^ n]) ∧
    (crx_matrix p).shape = (if B = 1 then [4, 4] else [B, 4, 4]) := by
  refine ⟨?_, ?_, ?_, ?_, ?_, ?_, ?_⟩
  · simp only [rx_matrix, squeeze0_shape, stack2Last_shape, catLast_shape, ptMap_shape,
      lastDim, hp]
    by_cases hB : B = 1 <;> simp [hB]
  · simp only [ry_matrix, squeeze0_shape, stack2Last_shape, catLast_shape, ptMap_shape,
      lastDim, hp]
    by_cases hB : B = 1 <;> simp [hB]
  · simp only [rz_matrix, squeeze0_shape, stack2Last_shape, catLast_shape, ptMap_shape,
      zerosPT_shape, lastDim, hp]
    by_cases hB : B = 1 <;> simp [hB]
  · simp only [phaseshift_matrix, squeeze0_shape, stack2Last_shape, catLast_shape,
      ptMap_shape, zerosPT_shape, onesPT_shape, lastDim, hp]
    by_cases hB : B = 1 <;> simp [hB]
  · simp only [rot_matrix, squeeze0_shape, stack2Last_shape, catLast_shape, ptMap_shape,
      ptZip_shape, colUnsq_shape, lastDim, hp3]
    by_cases hB : B = 1 <;> simp [hB]
  · simp only [multirz_matrix, multirz_eigvals, hp, List.headD_cons, diag_mk,
      squeeze0_shape]
    by_cases hB : B = 1 <;> simp [hB]
  · simp only [crx_matrix, squeeze0_shape, set44_shape, repeatDim0_shape, unsqueeze0_shape,
      ptMap_shape, hp, List.headD_cons]
    by_cases hB : B = 1 <;> simp [hB]

/-- Witness for the amended C4 at `B = 1` (and `n_wires = 1` for MultiRZ). -/
theorem generators_batch_axis_witness :
    (rx_matrix ⟨[1, 1], [0]⟩).shape = (if (1 : ℕ) = 1 then [2, 2] else [1, 2, 2]) ∧
    (ry_matrix ⟨[1, 1], [0]⟩).shape = (if (1 : ℕ) = 1 then [2, 2] else [1, 2, 2]) ∧
    (rz_matrix ⟨[1, 1], [0]⟩).shape = (if (1 : ℕ) = 1 then [2, 2] else [1, 2, 2]) ∧
    (phaseshift_matrix ⟨[1, 1], [0]⟩).shape = (if (1 : ℕ) = 1 then [2, 2] else [1, 2, 2]) ∧
    (rot_matrix ⟨[1, 3], [0, 0, 0]⟩).shape = (if (1 : ℕ) = 1 then [2, 2] else [1, 2, 2]) ∧
    (multirz_matrix ⟨[1, 1], [0]⟩ 1).shape =
      (if (1 : ℕ) = 1 then [2 ^ 1, 2 ^ 1] else [1, 2 ^ 1, 2 ^ 1]) ∧
    (crx_matrix ⟨[1, 1], [0]⟩).shape = (if (1 : ℕ) = 1 then [4, 4] else [1, 4, 4]) :=
  generators_batch_axis 1 1 ⟨[1, 1], [0]⟩ ⟨[1, 3], [0, 0, 0]⟩ rfl rfl

/-- Counterexample to C4 as stated: a single-row parameter (`B = 1`) does
not produce a leading batch axis of size 1 — the generator squeezes it away,
returning a rank-2 `(2, 2)` matrix instead of `(1, 2, 2)`. -/
theorem rx_matrix_singleton_squeezed :
    (rx_matrix ⟨[1, 1], [0]⟩).shape = [2, 2] ∧ ([2, 2] : List ℕ) ≠ [1, 2, 2] := by
  constructor
  · simp only [rx_matrix, squeeze0_shape, stack2Last_shape, catLast_shape, ptMap_shape,
      lastDim]
    simp
  · decide

/-- C10: for a parametric gate (a callable `mat_dict` entry), calling
`gate_wrapper` with `params = None` fails with the attribute error raised by
`params.dim()` — for every engine `applyU`, every generator body `f`, and
every device, so the failure happens before the matrix is built, before the
engine runs, and before the device state is read or reassigned (no updated
device is produced; the state is unchanged).  For a constant gate the
`params = None` default is harmless: the call goes through and installs the
engine result. -/
theorem gate_wrapper_none_params :
    (∀ (applyU : PTensor → PTensor → List ℕ → PTensor) (f : PTensor → Option ℕ → PTensor)
        (dev : QuantumDevice) (wires : WiresArg) (nw : Option ℕ),
      gate_wrapper applyU (GateMat.fn f) dev wires none nw =
        Except.error GWError.attributeError) ∧
    (∀ (applyU : PTensor → PTensor → List ℕ → PTensor) (m : PTensor)
        (dev : QuantumDevice) (wires : WiresArg) (nw : Option ℕ),
      gate_wrapper applyU (GateMat.const m) dev wires none nw =
        Except.ok ⟨applyU dev.states m (normWires wires)⟩) :=
  ⟨fun _ _ _ _ _ => rfl, fun _ _ _ _ _ => rfl⟩

/-- C2 (code evaluation at the failing entry): the `mat_dict['cy']` tensor
stores `-i` at row 3, column 2 (flat index 14), which differs from the `+i`
of the standard controlled-Y matrix. -/
theorem cy_mat_entry_nonstandard :
    cy_mat.data.getD 14 0 = -Complex.I ∧ -Complex.I ≠ Complex.I := by
  constructor
  · rfl
  · intro h
    have him := congrArg Complex.im h
    simp at him
    norm_num at him

/-- C3 (code evaluation at the failing input): at `theta = π` the code's
`ry_matrix` returns `[[0, 1], [-1, 0]]` (row-major data `[0, 1, -1, 0]`) —
the transpose `RY(−π)` of the standard `RY(π) = [[0, −1], [1, 0]]` — because
`torch.stack(…, dim=-1)` makes the two concatenated rows the columns. -/
theorem ry_matrix_pi_transposed :
    (ry_matrix ⟨[1, 1], [((Real.pi : ℝ) : ℂ)]⟩).data = [0, 1, -1, 0] ∧
    (ry_matrix ⟨[1, 1], [((Real.pi : ℝ) : ℂ)]⟩).shape = [2, 2] := by
  have h2 : ((Real.pi : ℝ) : ℂ) / 2 = ((Real.pi / 2 : ℝ) : ℂ) := by
    push_cast
    ring
  have hc : Complex.cos (((Real.pi : ℝ) : ℂ) / 2) = 0 := by
    rw [h2, ← Complex.ofReal_cos, Real.cos_pi_div_two, Complex.ofReal_zero]
  have hs : Complex.sin (((Real.pi : ℝ) : ℂ) / 2) = 1 := by
    rw [h2, ← Complex.ofReal_sin, Real.sin_pi_div_two, Complex.ofReal_one]
  constructor
  · simp [ry_matrix, squeeze0_data, stack2Last, catLast, ptMap, lastDim, chunksOf_one,
      hc, hs]
  · simp [ry_matrix, squeeze0_shape, stack2Last_shape, catLast_shape, ptMap_shape, lastDim]

theorem rowexpand_map (ys : List ℂ) (f g : ℂ → ℂ) :
    ((ys.map fun z => [f z, g z]).flatMap fun row =>
        (List.range 2).flatMap fun i => (List.range 2).map fun j =>
          if i = j then row.getD i 0 else 0) =
      ys.flatMap fun z => [f z, 0, 0, g z] := by
  induction ys with
  | nil => rfl
  | cons a ys ih =>
    rw [List.map_cons, List.flatMap_cons, ih, List.flatMap_cons]
    rfl

theorem catpair_left (l : List ℂ) :
    (List.zipWith (fun a b => a ++ b) (chunksOf 1 l)
        (chunksOf 1 (List.replicate l.length (0 : ℂ)))).flatten =
      l.flatMap fun z => [z, 0] := by
  induction l with
  | nil => simp [chunksOf]
  | cons a l ih =>
    rw [chunksOf_one, chunksOf_one] at ih ⊢
    simp only [List.length_cons, List.replicate_succ, List.map_cons, List.zipWith_cons_cons]
    rw [List.flatten_cons, List.flatMap_cons]
    simp only [List.cons_append, List.nil_append]
    exact congrArg (fun t => a :: 0 :: t) ih

theorem catpair_right (l : List ℂ) :
    (List.zipWith (fun a b => a ++ b) (chunksOf 1 (List.replicate l.length (0 : ℂ)))
        (chunksOf 1 l)).flatten =
      l.flatMap fun z => [0, z] := by
  induction l with
  | nil => simp [chunksOf]
  | cons a l ih =>
    rw [chunksOf_one, chunksOf_one] at ih ⊢
    simp only [List.length_cons, List.replicate_succ, List.map_cons, List.zipWith_cons_cons]
    rw [List.flatten_cons, List.flatMap_cons]
    simp only [List.cons_append, List.nil_append]
    exact congrArg (fun t => 0 :: a :: t) ih

theorem zip_pair_blocks (ys : List ℂ) (a1 a2 b1 b2 : ℂ → ℂ) :
    (((ys.flatMap fun z => [a1 z, a2 z]).zip (ys.flatMap fun z => [b1 z, b2 z])).flatMap
        fun p => [p.1, p.2]) =
      ys.flatMap fun z => [a1 z, b1 z, a2 z, b2 z] := by
  induction ys with
  | nil => rfl
  | cons a ys ih =>
    rw [List.flatMap_cons, List.flatMap_cons, List.flatMap_cons]
    rw [show ([a1 a, a2 a] ++ ys.flatMap fun z => [a1 z, a2 z]).zip
          ([b1 a, b2 a] ++ ys.flatMap fun z => [b1 z, b2 z]) =
        [(a1 a, b1 a), (a2 a, b2 a)] ++
          ((ys.flatMap fun z => [a1 z, a2 z]).zip (ys.flatMap fun z => [b1 z, b2 z])) from
      List.zip_append (by simp)]
    rw [List.flatMap_append, ih]
    rfl

theorem rz_matrix_mk (L : ℕ) (ys : List ℂ) (hL : ys.length = L) :
    rz_matrix ⟨[L, 1], ys⟩ = squeeze0 ⟨[L, 2, 2],
      ys.flatMap fun z => [Complex.exp (-(1 / 2) * Complex.I * z), 0, 0,
        (starRingEnd ℂ) (Complex.exp (-(1 / 2) * Complex.I * z))]⟩ := by
  simp only [rz_matrix]
  refine congrArg squeeze0 ?_
  simp only [ptMap, stack2Last, catLast, zerosPT, lastDim]
  rw [PTensor.mk.injEq]
  constructor
  · simp
  · have hgl : ([L, 1] : List ℕ).getLastD 1 = 1 := by simp
    have hprod : ([L, 1] : List ℕ).prod =
        (ys.map fun z => Complex.exp (-(1 / 2) * Complex.I * z)).length := by
      simp [hL]
    rw [hgl, hprod, catpair_left]
    rw [show ((ys.map fun z => Complex.exp (-(1 / 2) * Complex.I * z)).length =
        ((ys.map fun z => Complex.exp (-(1 / 2) * Complex.I * z)).map
          (starRingEnd ℂ)).length) from by simp]
    rw [catpair_right]
    rw [show ((ys.map fun z => Complex.exp (-(1 / 2) * Complex.I * z)).map
          (starRingEnd ℂ)).flatMap (fun z => [0, z]) =
        (ys.map fun z => Complex.exp (-(1 / 2) * Complex.I * z)).flatMap
          (fun z => [0, (starRingEnd ℂ) z]) from List.flatMap_map _ _ _]
    rw [zip_pair_blocks (ys.map fun z => Complex.exp (-(1 / 2) * Complex.I * z))
        (fun z => z) (fun _ => 0) (fun _ => 0) (starRingEnd ℂ), List.flatMap_map]

theorem multirz_matrix_one_mk (L : ℕ) (ys : List ℂ) :
    multirz_matrix ⟨[L, 1], ys⟩ 1 = squeeze0 ⟨[L, 2, 2],
      ys.flatMap fun θ => [Complex.exp (-Complex.I * θ / 2 * ((1 : ℤ) : ℂ)), 0, 0,
        Complex.exp (-Complex.I * θ / 2 * ((-1 : ℤ) : ℂ))]⟩ := by
  have hps : pauli_eigs 1 = [1, -1] := by
    norm_num [pauli_eigs, List.range_succ, popCountN]
  simp only [multirz_matrix, multirz_eigvals, hps, List.headD_cons, pow_one,
    List.map_cons, List.map_nil]
  refine congrArg squeeze0 ?_
  rw [diag_mk, PTensor.mk.injEq]
  refine ⟨rfl, ?_⟩
  rw [chunksOf_two_flatMap, rowexpand_map]

/-- C7: the single-qubit instance of the MultiRZ generator coincides with
the dedicated RZ generator — same tensor (shape and entries) for every real
parameter column. -/
theorem multirz_matrix_one_eq_rz_matrix (xs : List ℝ) :
    multirz_matrix ⟨[xs.length, 1], xs.map Complex.ofReal⟩ 1 =
      rz_matrix ⟨[xs.length, 1], xs.map Complex.ofReal⟩ := by
  rw [multirz_matrix_one_mk, rz_matrix_mk xs.length (xs.map Complex.ofReal) (by simp)]
  refine congrArg squeeze0 (congrArg (PTensor.mk [xs.length, 2, 2]) ?_)
  rw [List.flatMap_map, List.flatMap_map]
  refine List.flatMap_congr fun r _ => ?_
  have h1 : Complex.exp (-Complex.I * Complex.ofReal r / 2 * ((1 : ℤ) : ℂ)) =
      Complex.exp (-(1 / 2) * Complex.I * Complex.ofReal r) := by
    rw [Int.cast_one, mul_one]
    congr 1
    ring
  have h4 : Complex.exp (-Complex.I * Complex.ofReal r / 2 * ((-1 : ℤ) : ℂ)) =
      (starRingEnd ℂ) (Complex.exp (-(1 / 2) * Complex.I * Complex.ofReal r)) := by
    have hm1 : ((-1 : ℤ) : ℂ) = -1 := by push_cast; ring
    rw [hm1, ← Complex.exp_conj]
    congr 1
    rw [show (starRingEnd ℂ) (-(1 / 2) * Complex.I * Complex.ofReal r) =
        (starRingEnd ℂ) (-(1 / 2)) * (starRingEnd ℂ) Complex.I *
          (starRingEnd ℂ) (Complex.ofReal r) from by rw [map_mul, map_mul],
      Complex.conj_I, Complex.conj_ofReal,
      show (starRingEnd ℂ) (-(1 / 2) : ℂ) = -(1 / 2) from by
        rw [map_neg, map_div₀, map_one, map_ofNat]]
    ring
  rw [h1, h4]
